import Mathlib

/-!
Verification of the streaming pagination script `get_device_vulnerabilities.py`.

The script fetches pages of vulnerability records from a REST endpoint,
streams each page's items into an output file as one JSON array, retries
transient failures with exponential backoff, and optionally pretty-prints
the finished file.  The definitions below embed the script's data model and
control flow; the theorems settle the specification's claims about it.

Modelling conventions:
* JSON numbers are modelled as exact integers (the script treats items as
  opaque JSON values; float formatting is outside the model).
* Bytes are modelled as `Char` lists / `String`s (the script writes UTF-8).
* Wall-clock sleeping is modelled by recording the requested durations, as
  exact rationals, in a trace.
-/

namespace CREM

/-- A JSON value, as decoded from a response body or re-encoded by
`dumps_bytes`.  Numbers are modelled as exact integers. -/
inductive Json where
  | null
  | bool (b : Bool)
  | num (n : Int)
  | str (s : String)
  | arr (elems : List Json)
  | obj (fields : List (String × Json))

/-- Decimal digit characters of `n`, most significant first (the rendering
`json.dumps` and `orjson.dumps` use for a non-negative integer). -/
def natChars (n : Nat) : List Char :=
  if n = 0 then ['0']
  else ((Nat.digits 10 n).reverse.map fun d => Char.ofNat (48 + d))

/-- Characters of an integer: an optional minus sign, then decimal digits. -/
def intChars (i : Int) : List Char :=
  if i < 0 then '-' :: natChars i.natAbs else natChars i.natAbs

/-- Lowercase hexadecimal digit character for `n < 16`. -/
def hexChar (n : Nat) : Char :=
  if n < 10 then Char.ofNat (48 + n) else Char.ofNat (87 + n)

/-- JSON escaping of one character, following `json.dumps` with
`ensure_ascii=False`: quote, backslash and the named control characters get
two-character escapes, the remaining control characters get `\u00xx`, and
everything else passes through unescaped. -/
def escapeOne (c : Char) : List Char :=
  if c = '"' then ['\\', '"']
  else if c = '\\' then ['\\', '\\']
  else if c = '\n' then ['\\', 'n']
  else if c = '\t' then ['\\', 't']
  else if c = '\r' then ['\\', 'r']
  else if c.toNat = 8 then ['\\', 'b']
  else if c.toNat = 12 then ['\\', 'f']
  else if c.toNat < 32 then
    ['\\', 'u', '0', '0', hexChar (c.toNat / 16), hexChar (c.toNat % 16)]
  else [c]

/-- JSON escaping of a character sequence (a string body, without the
surrounding quotes). -/
def escBody : List Char → List Char
  | [] => []
  | c :: cs => escapeOne c ++ escBody cs

mutual

/-- Compact serialization of a JSON value, embedding `dumps_bytes`
(`json.dumps(obj, ensure_ascii=False, separators=(',', ':'))`): no
insignificant whitespace anywhere. -/
def dumpsL : Json → List Char
  | .null => 'n' :: 'u' :: 'l' :: 'l' :: []
  | .bool b =>
      if b then 't' :: 'r' :: 'u' :: 'e' :: []
      else 'f' :: 'a' :: 'l' :: 's' :: 'e' :: []
  | .num i => intChars i
  | .str s => '"' :: (escBody s.data ++ ['"'])
  | .arr es => '[' :: (elemsL es ++ [']'])
  | .obj fs => '\x7b' :: (fieldsL fs ++ ['\x7d'])

/-- Array elements, comma separated, compact. -/
def elemsL : List Json → List Char
  | [] => []
  | [e] => dumpsL e
  | e :: e' :: es => dumpsL e ++ ',' :: elemsL (e' :: es)

/-- Object members, `"key":value`, comma separated, compact. -/
def fieldsL : List (String × Json) → List Char
  | [] => []
  | [(k, v)] => '"' :: (escBody k.data ++ '"' :: ':' :: dumpsL v)
  | (k, v) :: f :: fs =>
      ('"' :: (escBody k.data ++ '"' :: ':' :: dumpsL v)) ++ ',' :: fieldsL (f :: fs)

end

/-- Compact serialization as a `String` (the bytes `f.write(dumps_bytes(item))`
appends to the output file). -/
def dumps_bytes (v : Json) : String := String.mk (dumpsL v)

/-- A decoded page of the `vulnerableDevices` endpoint, as consumed by
`stream_all`: `data.get("items", [])`, `data.get("nextLink")` and
`data.get("totalCount", 'n/a')`.  `none` models an absent field. -/
structure Page where
  items : Option (List Json)
  nextLink : Option String
  totalCount : Option Int

/-- The item list of a page: `data.get("items", [])`. -/
def Page.pageItems (p : Page) : List Json := p.items.getD []

/-- Python truthiness test `not next_link` used to stop the pagination loop:
true when `nextLink` is absent (or JSON null) or the empty string. -/
def nextLinkFalsy : Option String → Bool
  | none => true
  | some s => s = ""

/-- Bytes written for one page's items by the inner `for item in page_items`
loop, threading the `first_item` flag: a `",\n"` separator goes before every
item but the first ever written.  Returns the written characters and the
updated flag. -/
def writeItems (firstItem : Bool) : List Json → List Char × Bool
  | [] => ([], firstItem)
  | item :: rest =>
      let sep : List Char := if firstItem then [] else [',', '\n']
      let (tl, fi) := writeItems false rest
      (sep ++ dumpsL item ++ tl, fi)

/-- State produced by the `while True` pagination loop of `stream_all` over a
trace of fetched pages: characters written between the brackets, the final
`first_item` flag, the cumulative `items_total` counter, and the number of
pages consumed.  The loop stops after the first page whose `nextLink` is
falsy; a trace that ends before that corresponds to a run cut short. -/
def streamLoop : List Page → Bool → List Char × Bool × Nat × Nat
  | [], fi => ([], fi, 0, 0)
  | p :: rest, fi =>
      let (out, fi') := writeItems fi p.pageItems
      if nextLinkFalsy p.nextLink then (out, fi', p.pageItems.length, 1)
      else
        let (out', fi'', n, c) := streamLoop rest fi'
        (out ++ out', fi'', p.pageItems.length + n, c + 1)

/-- Complete file content written by `stream_all` for a trace of fetched
pages: `b"[\n"`, the streamed items, then `b"\n]\n"`. -/
def streamBytes (pages : List Page) : String :=
  String.mk ('[' :: '\n' :: (streamLoop pages true).1 ++ '\n' :: ']' :: '\n' :: [])

/-- The pages a complete run consumes: every page before the last carries a
non-falsy `nextLink`, and the last page's `nextLink` is falsy, so the loop
consumes exactly this trace and then leaves the loop normally. -/
def completeTrace : List Page → Bool
  | [] => false
  | [p] => nextLinkFalsy p.nextLink
  | p :: p' :: rest => !nextLinkFalsy p.nextLink && completeTrace (p' :: rest)

/-- Items of a trace in page order, then position order within each page:
the order in which `stream_all` writes them. -/
def allItems (pages : List Page) : List Json :=
  (pages.map Page.pageItems).flatten

/-! The JSON reader below embeds `json.load`, the stdlib parser the
pretty-print step applies to the written file; it is also the yardstick for
the well-formedness claims about the streamed bytes.  It accepts whitespace
between structural tokens, as RFC 8259 and the stdlib decoder do. -/

/-- JSON insignificant whitespace. -/
def jsonWs (c : Char) : Bool := c = ' ' || c = '\n' || c = '\t' || c = '\r'

/-- Drop leading insignificant whitespace. -/
def dropWs : List Char → List Char
  | [] => []
  | c :: cs => if jsonWs c then dropWs cs else c :: cs

/-- Longest leading run of decimal digits, and the remainder. -/
def takeDigs : List Char → List Char × List Char
  | [] => ([], [])
  | c :: cs =>
      if c.isDigit then
        let (ds, r) := takeDigs cs
        (c :: ds, r)
      else ([], c :: cs)

/-- Numeric value of a run of decimal digit characters. -/
def digsVal (ds : List Char) : Nat :=
  ds.foldl (fun a c => a * 10 + (c.toNat - 48)) 0

/-- Value of one hexadecimal digit character, if it is one. -/
def hexDigVal : Char → Option Nat := fun c =>
  if '0' ≤ c ∧ c ≤ '9' then some (c.toNat - 48)
  else if 'a' ≤ c ∧ c ≤ 'f' then some (c.toNat - 87)
  else if 'A' ≤ c ∧ c ≤ 'F' then some (c.toNat - 55)
  else none

/-- Character named by a two-character escape, if valid. -/
def escName (e : Char) : Option Char :=
  if e = '"' then some '"'
  else if e = '\\' then some '\\'
  else if e = '/' then some '/'
  else if e = 'n' then some '\n'
  else if e = 't' then some '\t'
  else if e = 'r' then some '\r'
  else if e = 'b' then some (Char.ofNat 8)
  else if e = 'f' then some (Char.ofNat 12)
  else none

/-- Read a string body after its opening quote, undoing escapes, up to the
closing quote; returns the decoded characters and the remainder. -/
def readStr (cs : List Char) : Option (List Char × List Char) :=
  match cs with
  | [] => none
  | '"' :: r => some ([], r)
  | '\\' :: 'u' :: h1 :: h2 :: h3 :: h4 :: r =>
      match hexDigVal h1, hexDigVal h2, hexDigVal h3, hexDigVal h4 with
      | some a, some b, some c, some d =>
          (readStr r).map fun (l, r') =>
            (Char.ofNat (((a * 16 + b) * 16 + c) * 16 + d) :: l, r')
      | _, _, _, _ => none
  | '\\' :: e :: r =>
      match escName e with
      | some ch => (readStr r).map fun (l, r') => (ch :: l, r')
      | none => none
  | c :: r => (readStr r).map fun (l, r') => (c :: l, r')
termination_by cs.length
decreasing_by all_goals simp_wf <;> omega

mutual

/-- Read one JSON value (fuel-indexed so totality is structural); skips
leading whitespace, then dispatches on the first character. -/
def readVal : Nat → List Char → Option (Json × List Char)
  | 0, _ => none
  | fuel + 1, cs =>
      match dropWs cs with
      | 'n' :: 'u' :: 'l' :: 'l' :: r => some (.null, r)
      | 't' :: 'r' :: 'u' :: 'e' :: r => some (.bool true, r)
      | 'f' :: 'a' :: 'l' :: 's' :: 'e' :: r => some (.bool false, r)
      | '"' :: r => (readStr r).map fun (l, r') => (.str (String.mk l), r')
      | '[' :: r =>
          (match dropWs r with
           | [] => none
           | c :: r' =>
               if c = ']' then some (.arr [], r')
               else (readElems fuel (c :: r')).map fun (es, r'') => (.arr es, r''))
      | '\x7b' :: r =>
          (match dropWs r with
           | [] => none
           | c :: r' =>
               if c = '\x7d' then some (.obj [], r')
               else (readFields fuel (c :: r')).map fun (fs, r'') => (.obj fs, r''))
      | '-' :: c :: r =>
          if c.isDigit then
            let (ds, r') := takeDigs (c :: r)
            some (.num (-(digsVal ds : Int)), r')
          else none
      | c :: r =>
          if c.isDigit then
            let (ds, r') := takeDigs (c :: r)
            some (.num (digsVal ds : Int), r')
          else none
      | [] => none

/-- Read one or more comma-separated array elements up to the closing
bracket (an empty array is handled before this is entered). -/
def readElems : Nat → List Char → Option (List Json × List Char)
  | 0, _ => none
  | fuel + 1, cs =>
      (readVal fuel cs).bind fun (v, r) =>
        match dropWs r with
        | ',' :: r' => (readElems fuel (dropWs r')).map fun (vs, r'') => (v :: vs, r'')
        | ']' :: r' => some ([v], r')
        | _ => none

/-- Read one or more comma-separated object members up to the closing
brace (an empty object is handled before this is entered). -/
def readFields : Nat → List Char → Option (List (String × Json) × List Char)
  | 0, _ => none
  | fuel + 1, cs =>
      match dropWs cs with
      | '"' :: r =>
          (readStr r).bind fun (k, r1) =>
            match dropWs r1 with
            | ':' :: r2 =>
                (readVal fuel (dropWs r2)).bind fun (v, r3) =>
                  match dropWs r3 with
                  | ',' :: r4 =>
                      (readFields fuel (dropWs r4)).map fun (fs, r5) =>
                        ((String.mk k, v) :: fs, r5)
                  | '\x7d' :: r4 => some ([(String.mk k, v)], r4)
                  | _ => none
            | _ => none
      | _ => none

end

/-- Parse a whole document, embedding `json.load`: one JSON value, with
nothing but whitespace around it. -/
def json_load (s : String) : Option Json :=
  match readVal (s.data.length + 1) s.data with
  | some (v, r) => if dropWs r = [] then some v else none
  | none => none

/-! Specification-side helpers for the streaming loop. -/

/-- The pages the `while True` loop actually consumes from a trace: it
stops at (and includes) the first page whose `nextLink` is falsy. -/
def consumedPages : List Page → List Page
  | [] => []
  | p :: rest => if nextLinkFalsy p.nextLink then [p] else p :: consumedPages rest

/-- Characters written for a run of items when something was already
written before them: each item is preceded by the `",\n"` separator. -/
def chunk : List Json → List Char
  | [] => []
  | it :: its => ',' :: '\n' :: (dumpsL it ++ chunk its)

/-- Characters the item loop emits for `items` given the incoming
`first_item` flag. -/
def bodyChars (fi : Bool) (items : List Json) : List Char :=
  match fi, items with
  | _, [] => []
  | true, it :: its => dumpsL it ++ chunk its
  | false, it :: its => chunk (it :: its)

/-! Embedding of the module configuration and `_auth_header` (the token
pre-flight check), `fetch_page` (the retry loop), `main` (top-level error
handling) and the pretty-print post-processing step. -/

/-- Module constant: retry ceiling. -/
def MAX_RETRIES : Nat := 5

/-- Module constant: exponential backoff base (`1.5`, exact as a
rational). -/
def BACKOFF_BASE : ℚ := 3 / 2

/-- The module-level `TOKEN` value: the `TM_API_TOKEN` environment variable
when set and non-empty (Python `or` takes the fallback on a falsy left
operand), else the built-in placeholder `"<API key here>"`. -/
def TOKEN (env : Option String) : String :=
  match env with
  | some t => if t = "" then "<API key here>" else t
  | none => "<API key here>"

/-- Python `str.strip()`: the string without leading and trailing
whitespace. -/
def pyStrip (s : String) : String :=
  String.mk (((s.data.dropWhile Char.isWhitespace).reverse.dropWhile
    Char.isWhitespace).reverse)

/-- The failing condition of the token pre-flight:
`not TOKEN or TOKEN.strip() == "<PUT_YOUR_BEARER_TOKEN_HERE>"`. -/
def auth_check (tok : String) : Bool :=
  tok = "" || pyStrip tok = "<PUT_YOUR_BEARER_TOKEN_HERE>"

/-- Embedding of `_auth_header`: exits the process with code 1 when the
check fires, else returns the `Authorization` header value. -/
def auth_header (tok : String) : Except Nat String :=
  if auth_check tok then Except.error 1 else Except.ok ("Bearer " ++ tok)

/-- Result of one HTTP attempt inside `fetch_page`: a request-level
exception (`requests.RequestException`), or a response with a status code,
an optional `Retry-After` header, and a decoded body. -/
inductive AttemptOutcome where
  | netError
  | response (status : Nat) (retryAfter : Option String) (body : Page)

/-- Result of `fetch_page`: a decoded page on HTTP 200; an implicit `None`
return when `raise_for_status` accepts a non-200 status below 400; or a
propagated exception. -/
inductive FetchResult where
  | ok (body : Page)
  | okNone
  | raisedNetError
  | raisedHTTPError (status : Nat)

/-- The retryable status set of `fetch_page`. -/
def retryable (s : Nat) : Bool :=
  s = 429 || s = 500 || s = 502 || s = 503 || s = 504

/-- Python `float()` on a header string, restricted to decimal literals:
optional surrounding whitespace, optional sign, then digits with an
optional fractional part.  Exponent, infinity and nan forms are not
modelled. -/
def pyFloat? (s : String) : Option ℚ :=
  let cs := ((s.data.dropWhile Char.isWhitespace).reverse.dropWhile
      Char.isWhitespace).reverse
  let (neg, cs1) : Bool × List Char :=
    match cs with
    | '-' :: r => (true, r)
    | '+' :: r => (false, r)
    | _ => (false, cs)
  let (ip, cs2) := takeDigs cs1
  match cs2 with
  | '.' :: r =>
      let (fp, cs3) := takeDigs r
      if cs3 = [] ∧ (ip ≠ [] ∨ fp ≠ []) then
        some ((if neg then -1 else 1)
          * ((digsVal ip : ℚ) + (digsVal fp : ℚ) / (10 : ℚ) ^ fp.length))
      else none
  | [] => if ip ≠ [] then some ((if neg then -1 else 1) * (digsVal ip : ℚ)) else none
  | _ => none

/-- The `while True` retry loop of `fetch_page`, keyed by the outcomes of
the successive request attempts (`outcomes i` is the `i`-th attempt).
Returns the result, the trace of sleep durations requested (in order), and
the number of requests issued.  Mirrors the source: on a request exception,
`attempt` is incremented, the exception propagates once `attempt`
exceeds `MAX_RETRIES`, else the loop sleeps `BACKOFF_BASE ** attempt`; on
a retryable status the sleep honours a numeric `Retry-After` header;
status 200 returns the decoded body; any other status goes through
`raise_for_status`, which raises only at 400 and above. -/
def fetchGo (outcomes : Nat → AttemptOutcome) (i attempt : Nat) :
    FetchResult × List ℚ × Nat :=
  match outcomes i with
  | .netError =>
      if h : attempt + 1 > MAX_RETRIES then (.raisedNetError, [], 1)
      else
        let r := fetchGo outcomes (i + 1) (attempt + 1)
        (r.1, BACKOFF_BASE ^ (attempt + 1) :: r.2.1, r.2.2 + 1)
  | .response st ra body =>
      if st = 200 then (.ok body, [], 1)
      else if retryable st then
        if h : attempt + 1 > MAX_RETRIES then (.raisedHTTPError st, [], 1)
        else
          let slp : ℚ :=
            match ra with
            | none => BACKOFF_BASE ^ (attempt + 1)
            | some hd =>
                if hd = "" then BACKOFF_BASE ^ (attempt + 1)
                else
                  match pyFloat? hd with
                  | some q => q
                  | none => BACKOFF_BASE ^ (attempt + 1)
          let r := fetchGo outcomes (i + 1) (attempt + 1)
          (r.1, slp :: r.2.1, r.2.2 + 1)
      else if 400 ≤ st then (.raisedHTTPError st, [], 1)
      else (.okNone, [], 1)
termination_by MAX_RETRIES + 1 - attempt
decreasing_by all_goals (simp only [MAX_RETRIES] at *; omega)

/-- Embedding of `fetch_page`: the retry loop started with `attempt = 0`
at the first request. -/
def fetch_page (outcomes : Nat → AttemptOutcome) : FetchResult × List ℚ × Nat :=
  fetchGo outcomes 0 0

/-- An attempt that takes one of the two retried paths: a request-level
exception or a retryable HTTP status. -/
def isFailure : AttemptOutcome → Bool
  | .netError => true
  | .response st _ _ => retryable st

/-- A result that propagates an error out of `fetch_page`. -/
def raisedResult : FetchResult → Bool
  | .raisedNetError => true
  | .raisedHTTPError _ => true
  | _ => false

/-- An error escaping `stream_all`, as `main` sees it: `SystemExit` (from
`sys.exit`, not an `Exception` subclass, so the `except Exception` clause
does not catch it) or an `Exception` with a message. -/
inductive PyError where
  | exception (msg : String)
  | systemExit (code : Nat)

/-- Abstract run of `stream_all`: the session construction runs the token
pre-flight first (writing to stderr and exiting 1 on failure, before any
request); afterwards the streaming loop either raises some exception or
completes and returns the output path.  The second component records
whether a diagnostic went to standard error. -/
def stream_all_run (env : Option String) (ts : String)
    (fetchOutcome : Except String (List Page)) : Except PyError String × Bool :=
  if auth_check (TOKEN env) then (Except.error (PyError.systemExit 1), true)
  else
    match fetchOutcome with
    | Except.error msg => (Except.error (PyError.exception msg), false)
    | Except.ok _ => (Except.ok ("vulnerable_devices_" ++ ts ++ ".json"), false)

/-- Observable outcome of the process: exit code, whether a diagnostic was
written to standard error, and the final informational line on stdout. -/
structure ProcOutcome where
  exitCode : Nat
  stderrDiag : Bool
  stdoutFinal : Option String

/-- Embedding of `main`: catches `Exception` (diagnostic to stderr, exit
2), lets `SystemExit` propagate unchanged, and on success prints
`Wrote: <path>` and exits 0. -/
def main_run (env : Option String) (ts : String)
    (fetchOutcome : Except String (List Page)) : ProcOutcome :=
  match stream_all_run env ts fetchOutcome with
  | (Except.ok path, _) => ⟨0, false, some ("Wrote: " ++ path)⟩
  | (Except.error (PyError.exception _), _) => ⟨2, true, none⟩
  | (Except.error (PyError.systemExit c), sd) => ⟨c, sd, none⟩

/-- Indentation run used by the pretty printer. -/
def indentChars (n : Nat) : List Char := List.replicate n ' '

mutual

/-- Serialization with `indent=2`, embedding
`json.dump(data, f, ensure_ascii=False, indent=2)` as used by the
pretty-print rewrite step. -/
def prettyL (ind : Nat) : Json → List Char
  | .arr [] => ['[', ']']
  | .obj [] => ['\x7b', '\x7d']
  | .arr (e :: es) =>
      '[' :: '\n' :: (prettyElems (ind + 2) (e :: es)
        ++ '\n' :: (indentChars ind ++ [']']))
  | .obj (f2 :: fs) =>
      '\x7b' :: '\n' :: (prettyFields (ind + 2) (f2 :: fs)
        ++ '\n' :: (indentChars ind ++ ['\x7d']))
  | v => dumpsL v

/-- Indented array elements, one per line. -/
def prettyElems (ind : Nat) : List Json → List Char
  | [] => []
  | [e] => indentChars ind ++ prettyL ind e
  | e :: e' :: es =>
      (indentChars ind ++ prettyL ind e) ++ ',' :: '\n' :: prettyElems ind (e' :: es)

/-- Indented object members, `"key": value`, one per line. -/
def prettyFields (ind : Nat) : List (String × Json) → List Char
  | [] => []
  | [(k, v)] =>
      indentChars ind ++ '"' :: (escBody k.data ++ '"' :: ':' :: ' ' :: prettyL ind v)
  | (k, v) :: f2 :: fs =>
      (indentChars ind ++ '"' :: (escBody k.data ++ '"' :: ':' :: ' ' :: prettyL ind v))
        ++ ',' :: '\n' :: prettyFields ind (f2 :: fs)

end

/-- The pretty-print rewrite step over the written file's content.  The
whole file is loaded back as JSON; on a load failure the handler logs a
warning and the file content is unchanged.  Otherwise the same path is
reopened with mode `"w"`, which truncates it, and the indented dump is
written; `dumpFail = some k` models `json.dump` raising after `k`
characters were written, which the handler also answers with a warning.
Returns the resulting file content and whether a warning was logged; the
step itself never propagates an error. -/
def reformat_attempt (content : String) (dumpFail : Option Nat) : String × Bool :=
  match json_load content with
  | none => (content, true)
  | some v =>
      match dumpFail with
      | none => (String.mk (prettyL 0 v), false)
      | some k => (String.mk ((prettyL 0 v).take k), true)

/-- The optional post-processing of `stream_all`: the rewrite step runs
only when `COMPACT_OUTPUT` is false. -/
def post_process (compact : Bool) (content : String) (dumpFail : Option Nat) :
    String × Bool :=
  if compact then (content, false) else reformat_attempt content dumpFail

/-! Round-trip development: reading back serialized output recovers the
value.  This underpins the well-formedness claims about the streamed file. -/

/-- Input that cannot extend a serialized number: empty, or not starting
with a decimal digit.  Every separator the stream writer emits qualifies. -/
def noDigitHead : List Char → Bool
  | [] => true
  | c :: _ => !c.isDigit

/-- Rebuilding a string from its own characters is the identity. -/
theorem String_mk_data (s : String) : String.mk s.data = s := by
  cases s
  rfl

/-- Facts about the digit character of a digit value below ten. -/
theorem digitChar_facts (d : Nat) (hd : d < 10) :
    (Char.ofNat (48 + d)).toNat = 48 + d ∧ (Char.ofNat (48 + d)).isDigit = true ∧
      jsonWs (Char.ofNat (48 + d)) = false ∧ Char.ofNat (48 + d) ≠ ']' ∧
      Char.ofNat (48 + d) ≠ '-' ∧ Char.ofNat (48 + d) ≠ 'n' ∧
      Char.ofNat (48 + d) ≠ 't' ∧ Char.ofNat (48 + d) ≠ 'f' ∧
      Char.ofNat (48 + d) ≠ '"' ∧ Char.ofNat (48 + d) ≠ '[' ∧
      Char.ofNat (48 + d) ≠ '\x7b' := by
  interval_cases d <;> refine ⟨by decide, by decide, by decide, by decide, by decide,
    by decide, by decide, by decide, by decide, by decide, by decide⟩

/-- Every character of `natChars n` is a decimal digit. -/
theorem natChars_digits (n : Nat) : ∀ c ∈ natChars n, c.isDigit = true := by
  intro c hc
  unfold natChars at hc
  by_cases h0 : n = 0
  · simp [h0] at hc
    simp [hc]
  · simp only [h0, if_false, List.mem_map, List.mem_reverse] at hc
    obtain ⟨d, hd, rfl⟩ := hc
    exact (digitChar_facts d (Nat.digits_lt_base (by norm_num) hd)).2.1

/-- A rendered natural number is a nonempty digit run. -/
theorem natChars_ne_nil (n : Nat) : natChars n ≠ [] := by
  unfold natChars
  by_cases h0 : n = 0
  · simp [h0]
  · simp only [h0, if_false]
    simp [Nat.digits_ne_nil_iff_ne_zero.mpr h0]

/-- Folding digit characters is folding the digits. -/
theorem foldl_digitChars (L : List Nat) (hL : ∀ d ∈ L, d < 10) (a : Nat) :
    List.foldl (fun acc c => acc * 10 + (c.toNat - 48)) a
        (L.map fun d => Char.ofNat (48 + d))
      = List.foldl (fun acc d => acc * 10 + d) a L := by
  induction L generalizing a with
  | nil => rfl
  | cons d L ih =>
      simp only [List.map_cons, List.foldl_cons]
      rw [(digitChar_facts d (hL d (by simp))).1]
      have : 48 + d - 48 = d := by omega
      rw [this, ih (fun x hx => hL x (by simp [hx]))]

/-- Folding most-significant-first digits computes the little-endian value. -/
theorem foldl_rev_ofDigits (L : List Nat) :
    List.foldl (fun acc d => acc * 10 + d) 0 L.reverse = Nat.ofDigits 10 L := by
  rw [List.foldl_reverse]
  induction L with
  | nil => simp [Nat.ofDigits]
  | cons d L ih =>
      simp only [List.foldr_cons, ih, Nat.ofDigits_cons]
      ring

/-- Reading back the decimal rendering of `n` recovers `n`. -/
theorem digsVal_natChars (n : Nat) : digsVal (natChars n) = n := by
  unfold natChars digsVal
  by_cases h0 : n = 0
  · simp [h0]
  · simp only [h0, if_false]
    rw [foldl_digitChars _ (fun d hd =>
          Nat.digits_lt_base (by norm_num) (List.mem_reverse.mp hd)),
        foldl_rev_ofDigits, Nat.ofDigits_digits]

/-- A digit run followed by a non-digit splits exactly at the boundary. -/
theorem takeDigs_exact (ds rest : List Char) (hds : ∀ c ∈ ds, c.isDigit = true)
    (hrest : noDigitHead rest = true) : takeDigs (ds ++ rest) = (ds, rest) := by
  induction ds with
  | nil =>
      cases rest with
      | nil => rfl
      | cons c t =>
          simp only [noDigitHead, Bool.not_eq_true'] at hrest
          simp [takeDigs, hrest]
  | cons c t ih =>
      have hc : c.isDigit = true := hds c (by simp)
      have ht := ih (fun x hx => hds x (by simp [hx]))
      simp [takeDigs, hc, ht]

/-- Hexadecimal digit characters carry their value. -/
theorem hexDigVal_hexChar (n : Nat) (h : n < 16) : hexDigVal (hexChar n) = some n := by
  interval_cases n <;> decide

/-- Dropping whitespace is the identity when the head is not whitespace. -/
theorem dropWs_not (c : Char) (cs : List Char) (h : jsonWs c = false) :
    dropWs (c :: cs) = c :: cs := by
  simp [dropWs, h]

/-- Reading one escaped character undoes its escaping. -/
theorem readStr_escOne (c : Char) (rest : List Char) :
    readStr (escapeOne c ++ rest) = (readStr rest).map fun p => (c :: p.1, p.2) := by
  by_cases h1 : c = '"'
  · subst h1; simp [escapeOne, readStr, escName]
  by_cases h2 : c = '\\'
  · subst h2; simp [escapeOne, readStr, escName]
  by_cases h3 : c = '\n'
  · subst h3; simp [escapeOne, readStr, escName]
  by_cases h4 : c = '\t'
  · subst h4; simp [escapeOne, readStr, escName]
  by_cases h5 : c = '\r'
  · subst h5; simp [escapeOne, readStr, escName]
  by_cases h6 : c.toNat = 8
  · have hc : c = Char.ofNat 8 := by rw [← h6, Char.ofNat_toNat]
    subst hc
    simp [escapeOne, readStr, escName]
  by_cases h7 : c.toNat = 12
  · have hc : c = Char.ofNat 12 := by rw [← h7, Char.ofNat_toNat]
    subst hc
    simp [escapeOne, readStr, escName]
  by_cases h8 : c.toNat < 32
  · have e1 : escapeOne c
        = ['\\', 'u', '0', '0', hexChar (c.toNat / 16), hexChar (c.toNat % 16)] := by
      rw [escapeOne]
      have hq : ¬(c = '"') := h1
      have hb : ¬(c = '\\') := h2
      simp [hq, hb, h3, h4, h5, h6, h7, h8]
    rw [e1]
    have hv1 : hexDigVal (hexChar (c.toNat / 16)) = some (c.toNat / 16) :=
      hexDigVal_hexChar _ (by omega)
    have hv2 : hexDigVal (hexChar (c.toNat % 16)) = some (c.toNat % 16) :=
      hexDigVal_hexChar _ (by omega)
    have harith : c.toNat / 16 * 16 + c.toNat % 16 = c.toNat := by
      omega
    have hv0 : hexDigVal '0' = some 0 := by decide
    simp [readStr, hv0, hv1, hv2, harith, Char.ofNat_toNat]
  · have e1 : escapeOne c = [c] := by
      rw [escapeOne]
      simp [h1, h2, h3, h4, h5, h6, h7, h8]
    rw [e1]
    rw [readStr.eq_def]
    simp only [List.cons_append, List.nil_append]
    have h1' : c ≠ '"' := h1
    have h2' : c ≠ '\\' := h2
    simp [h1', h2']

/-- Reading an escaped body stops exactly at the closing quote. -/
theorem readStr_escBody (cs : List Char) : ∀ rest : List Char,
    readStr (escBody cs ++ '"' :: rest) = some (cs, rest) := by
  induction cs with
  | nil => intro rest; simp [escBody, readStr]
  | cons c t ih =>
      intro rest
      rw [escBody, List.append_assoc, readStr_escOne, ih]
      rfl

/-- A rendered natural number starts with a digit character. -/
theorem natChars_cons (n : Nat) : ∃ c t, natChars n = c :: t ∧ c.isDigit = true := by
  match h : natChars n with
  | [] => exact absurd h (natChars_ne_nil n)
  | c :: t =>
      exact ⟨c, t, rfl, natChars_digits n c (by rw [h]; exact List.mem_cons_self c t)⟩

/-- A digit character is none of the parser's structural characters. -/
theorem isDigit_facts (c : Char) (h : c.isDigit = true) :
    jsonWs c = false ∧ c ≠ ']' ∧ c ≠ '-' ∧ c ≠ 'n' ∧ c ≠ 't' ∧ c ≠ 'f' ∧
      c ≠ '"' ∧ c ≠ '[' ∧ c ≠ '\x7b' ∧ c ≠ '\x7d' := by
  refine ⟨?_, ?_, ?_, ?_, ?_, ?_, ?_, ?_, ?_, ?_⟩
  · simp only [jsonWs, Bool.or_eq_false_iff, decide_eq_false_iff_not]
    refine ⟨⟨⟨?_, ?_⟩, ?_⟩, ?_⟩ <;> (intro hc; subst hc; exact absurd h (by decide))
  all_goals (intro hc; subst hc; exact absurd h (by decide))

/-- Every serialized value starts with a non-whitespace character that is
not a closing bracket. -/
theorem dumpsL_head (v : Json) :
    ∃ c t, dumpsL v = c :: t ∧ jsonWs c = false ∧ c ≠ ']' := by
  cases v with
  | null => exact ⟨'n', _, rfl, by decide, by decide⟩
  | bool b =>
      cases b with
      | true => exact ⟨'t', _, rfl, by decide, by decide⟩
      | false => exact ⟨'f', _, rfl, by decide, by decide⟩
  | num i =>
      by_cases hi : i < 0
      · exact ⟨'-', natChars i.natAbs, by simp [dumpsL, intChars, hi], by decide, by decide⟩
      · obtain ⟨c0, t0, h0, hd0⟩ := natChars_cons i.natAbs
        obtain ⟨hws, hbr, -⟩ := isDigit_facts c0 hd0
        exact ⟨c0, t0, by simp [dumpsL, intChars, hi, h0], hws, hbr⟩
  | str s => exact ⟨'"', _, rfl, by decide, by decide⟩
  | arr es => exact ⟨'[', _, rfl, by decide, by decide⟩
  | obj fs => exact ⟨'\x7b', _, rfl, by decide, by decide⟩

/-- A serialized element list starts like its first element. -/
theorem elemsL_head (e : Json) (es : List Json) :
    ∃ c t, elemsL (e :: es) = c :: t ∧ jsonWs c = false ∧ c ≠ ']' := by
  obtain ⟨c, t, h, hws, hbr⟩ := dumpsL_head e
  cases es with
  | nil => exact ⟨c, t, by simp [elemsL, h], hws, hbr⟩
  | cons e' es' =>
      exact ⟨c, t ++ ',' :: elemsL (e' :: es'), by simp [elemsL, h], hws, hbr⟩

/-- A serialized member list starts with the opening quote of its first key. -/
theorem fieldsL_head (kv : String × Json) (fs : List (String × Json)) :
    ∃ t, fieldsL (kv :: fs) = '"' :: t := by
  obtain ⟨k, v⟩ := kv
  cases fs with
  | nil => exact ⟨_, rfl⟩
  | cons f2 fs' => exact ⟨_, rfl⟩

/-- The reader's array branch defers to `readElems` when the element list
does not open with a closing bracket. -/
theorem readVal_arr_go (f : Nat) (xs ys : List Char) (c : Char)
    (hdw : dropWs xs = c :: ys) (hc : c ≠ ']') :
    readVal (f + 1) ('[' :: xs)
      = (readElems f (c :: ys)).map fun p => (Json.arr p.1, p.2) := by
  have step : readVal (f + 1) ('[' :: xs)
      = (match dropWs xs with
         | [] => none
         | c :: r' =>
             if c = ']' then some (.arr [], r')
             else (readElems f (c :: r')).map fun p => (Json.arr p.1, p.2)) := rfl
  rw [step, hdw]
  simp [hc]

/-- The reader's object branch defers to `readFields` when the member list
does not open with a closing brace. -/
theorem readVal_obj_go (f : Nat) (xs ys : List Char) (c : Char)
    (hdw : dropWs xs = c :: ys) (hc : c ≠ '\x7d') :
    readVal (f + 1) ('\x7b' :: xs)
      = (readFields f (c :: ys)).map fun p => (Json.obj p.1, p.2) := by
  have step : readVal (f + 1) ('\x7b' :: xs)
      = (match dropWs xs with
         | [] => none
         | c :: r' =>
             if c = '\x7d' then some (.obj [], r')
             else (readFields f (c :: r')).map fun p => (Json.obj p.1, p.2)) := rfl
  rw [step, hdw]
  simp [hc]

/-- The reader's number branch on a digit-headed input. -/
theorem readVal_num_go (f : Nat) (c : Char) (t ds r' : List Char)
    (hd : c.isDigit = true) (htd : takeDigs (c :: t) = (ds, r')) :
    readVal (f + 1) (c :: t) = some (.num (digsVal ds : Int), r') := by
  obtain ⟨hws, -, hm, hn, ht', hf', hq, hbk, hbc, -⟩ := isDigit_facts c hd
  simp only [readVal]
  rw [dropWs_not c t hws]
  simp [hn, ht', hf', hq, hbk, hbc, hm, hd, htd]

/-- The reader's number branch on a minus-then-digit input. -/
theorem readVal_neg_go (f : Nat) (c : Char) (t ds r' : List Char)
    (hd : c.isDigit = true) (htd : takeDigs (c :: t) = (ds, r')) :
    readVal (f + 1) ('-' :: c :: t) = some (.num (-(digsVal ds : Int)), r') := by
  simp only [readVal]
  rw [dropWs_not '-' (c :: t) (by decide)]
  simp [hd, htd]

/-- One unfolding of the reader's string-key member branch. -/
theorem readFields_key_go (g : Nat) (X : List Char) :
    readFields (g + 1) ('"' :: X)
      = (readStr X).bind fun p =>
          match dropWs p.2 with
          | ':' :: r2 =>
              (readVal g (dropWs r2)).bind fun q =>
                match dropWs q.2 with
                | ',' :: r4 =>
                    (readFields g (dropWs r4)).map fun w =>
                      ((String.mk p.1, q.1) :: w.1, w.2)
                | '\x7d' :: r4 => some ([(String.mk p.1, q.1)], r4)
                | _ => none
          | _ => none := rfl

mutual

/-- Reading back a serialized value recovers it, for any remainder that
cannot extend a number. -/
theorem rt_val : ∀ (v : Json) (f : Nat) (rest : List Char),
    (dumpsL v).length < f → noDigitHead rest = true →
    readVal f (dumpsL v ++ rest) = some (v, rest)
  | .null, f, rest, hf, _ => by
      cases f with
      | zero => exact absurd hf (Nat.not_lt_zero _)
      | succ g => rfl
  | .bool true, f, rest, hf, _ => by
      cases f with
      | zero => exact absurd hf (Nat.not_lt_zero _)
      | succ g => rfl
  | .bool false, f, rest, hf, _ => by
      cases f with
      | zero => exact absurd hf (Nat.not_lt_zero _)
      | succ g => rfl
  | .num i, f, rest, hf, hr => by
      cases f with
      | zero => exact absurd hf (Nat.not_lt_zero _)
      | succ g =>
          obtain ⟨c0, t0, h0, hd0⟩ := natChars_cons i.natAbs
          have hds : ∀ c ∈ c0 :: t0, c.isDigit = true := by
            rw [← h0]; exact natChars_digits _
          have htd : takeDigs (c0 :: (t0 ++ rest)) = (c0 :: t0, rest) := by
            have h := takeDigs_exact (c0 :: t0) rest hds hr
            simpa using h
          have hv : digsVal (c0 :: t0) = i.natAbs := by
            rw [← h0, digsVal_natChars]
          by_cases hi : i < 0
          · have harg : dumpsL (.num i) ++ rest = '-' :: c0 :: (t0 ++ rest) := by
              simp [dumpsL, intChars, hi, h0]
            rw [harg, readVal_neg_go g c0 (t0 ++ rest) (c0 :: t0) rest hd0 htd, hv]
            have hcast : -((i.natAbs : Nat) : Int) = i := by omega
            rw [hcast]
          · have harg : dumpsL (.num i) ++ rest = c0 :: (t0 ++ rest) := by
              simp [dumpsL, intChars, hi, h0]
            rw [harg, readVal_num_go g c0 (t0 ++ rest) (c0 :: t0) rest hd0 htd, hv]
            have hcast : ((i.natAbs : Nat) : Int) = i := by omega
            rw [hcast]
  | .str s, f, rest, hf, _ => by
      cases f with
      | zero => exact absurd hf (Nat.not_lt_zero _)
      | succ g =>
          have harg : dumpsL (.str s) ++ rest = '"' :: (escBody s.data ++ '"' :: rest) := by
            simp [dumpsL]
          rw [harg]
          have step : readVal (g + 1) ('"' :: (escBody s.data ++ '"' :: rest))
              = (readStr (escBody s.data ++ '"' :: rest)).map
                  fun p => (Json.str (String.mk p.1), p.2) := rfl
          rw [step, readStr_escBody]
          simp [String_mk_data]
  | .arr [], f, rest, hf, _ => by
      cases f with
      | zero => exact absurd hf (Nat.not_lt_zero _)
      | succ g => rfl
  | .arr (e :: es), f, rest, hf, _ => by
      cases f with
      | zero => exact absurd hf (Nat.not_lt_zero _)
      | succ g =>
          obtain ⟨c0, t0, h0, hws0, hbr0⟩ := elemsL_head e es
          have hcons : elemsL (e :: es) ++ ']' :: rest = c0 :: (t0 ++ ']' :: rest) := by
            rw [h0]; simp
          have hdw : dropWs (elemsL (e :: es) ++ ']' :: rest)
              = c0 :: (t0 ++ ']' :: rest) := by
            rw [hcons]; exact dropWs_not _ _ hws0
          have hfe : (elemsL (e :: es)).length + 1 < g := by
            have : (dumpsL (.arr (e :: es))).length = (elemsL (e :: es)).length + 2 := by
              simp [dumpsL]
            omega
          have harg : dumpsL (.arr (e :: es)) ++ rest
              = '[' :: (elemsL (e :: es) ++ ']' :: rest) := by
            simp [dumpsL]
          rw [harg, readVal_arr_go g _ _ c0 hdw hbr0, ← hcons, rt_elems e es g rest hfe]
          rfl
  | .obj [], f, rest, hf, _ => by
      cases f with
      | zero => exact absurd hf (Nat.not_lt_zero _)
      | succ g => rfl
  | .obj (kv :: fs), f, rest, hf, _ => by
      cases f with
      | zero => exact absurd hf (Nat.not_lt_zero _)
      | succ g =>
          obtain ⟨t0, h0⟩ := fieldsL_head kv fs
          have hcons : fieldsL (kv :: fs) ++ '\x7d' :: rest
              = '"' :: (t0 ++ '\x7d' :: rest) := by
            rw [h0]; simp
          have hdw : dropWs (fieldsL (kv :: fs) ++ '\x7d' :: rest)
              = '"' :: (t0 ++ '\x7d' :: rest) := by
            rw [hcons]; exact dropWs_not _ _ (by decide)
          have hff : (fieldsL (kv :: fs)).length + 1 < g := by
            have : (dumpsL (.obj (kv :: fs))).length = (fieldsL (kv :: fs)).length + 2 := by
              simp [dumpsL]
            omega
          have harg : dumpsL (.obj (kv :: fs)) ++ rest
              = '\x7b' :: (fieldsL (kv :: fs) ++ '\x7d' :: rest) := by
            simp [dumpsL]
          rw [harg, readVal_obj_go g _ _ '"' hdw (by decide), ← hcons,
              rt_fields kv fs g rest hff]
          rfl
  termination_by v => sizeOf v

/-- Reading back a serialized nonempty element list recovers it. -/
theorem rt_elems : ∀ (e : Json) (es : List Json) (f : Nat) (rest : List Char),
    (elemsL (e :: es)).length + 1 < f →
    readElems f (elemsL (e :: es) ++ ']' :: rest) = some (e :: es, rest)
  | e, [], f, rest, hf => by
      cases f with
      | zero => exact absurd hf (Nat.not_lt_zero _)
      | succ g =>
          have hfe : (dumpsL e).length < g := by
            simp only [elemsL, List.length_cons] at hf; omega
          have hv := rt_val e g (']' :: rest) hfe rfl
          have harg : elemsL [e] ++ ']' :: rest = dumpsL e ++ ']' :: rest := by
            simp [elemsL]
          rw [harg]
          simp only [readElems, hv, Option.some_bind]
          rw [dropWs_not ']' rest (by decide)]
          rfl
  | e, x :: xs, f, rest, hf => by
      cases f with
      | zero => exact absurd hf (Nat.not_lt_zero _)
      | succ g =>
          have hlen : (elemsL (e :: x :: xs)).length
              = (dumpsL e).length + 1 + (elemsL (x :: xs)).length := by
            simp only [elemsL, List.length_append, List.length_cons]
            omega
          have hfe : (dumpsL e).length < g := by omega
          have hfx : (elemsL (x :: xs)).length + 1 < g := by omega
          have hv := rt_val e g (',' :: (elemsL (x :: xs) ++ ']' :: rest)) hfe rfl
          obtain ⟨c1, t1, h1, hws1, -⟩ := elemsL_head x xs
          have hdw2 : dropWs (elemsL (x :: xs) ++ ']' :: rest)
              = elemsL (x :: xs) ++ ']' :: rest := by
            rw [h1]; simp only [List.cons_append]; exact dropWs_not _ _ hws1
          have harg : elemsL (e :: x :: xs) ++ ']' :: rest
              = dumpsL e ++ ',' :: (elemsL (x :: xs) ++ ']' :: rest) := by
            simp [elemsL]
          rw [harg]
          simp only [readElems, hv, Option.some_bind]
          rw [dropWs_not ',' (elemsL (x :: xs) ++ ']' :: rest) (by decide)]
          simp only [hdw2, rt_elems x xs g rest hfx]
          rfl
  termination_by e es => sizeOf e + sizeOf es

/-- Reading back a serialized nonempty member list recovers it. -/
theorem rt_fields : ∀ (kv : String × Json) (fs : List (String × Json)) (f : Nat)
    (rest : List Char), (fieldsL (kv :: fs)).length + 1 < f →
    readFields f (fieldsL (kv :: fs) ++ '\x7d' :: rest) = some (kv :: fs, rest)
  | (k, v), [], f, rest, hf => by
      cases f with
      | zero => exact absurd hf (Nat.not_lt_zero _)
      | succ g =>
          have hfv : (dumpsL v).length < g := by
            have : (fieldsL [(k, v)]).length
                = (escBody k.data).length + 3 + (dumpsL v).length := by
              simp only [fieldsL, List.length_append, List.length_cons]
              omega
            omega
          have hv := rt_val v g ('\x7d' :: rest) hfv rfl
          have harg : fieldsL [(k, v)] ++ '\x7d' :: rest
              = '"' :: (escBody k.data ++ '"' :: (':' :: (dumpsL v ++ '\x7d' :: rest))) := by
            simp [fieldsL]
          obtain ⟨cv, tv, hv0, hwsv, -⟩ := dumpsL_head v
          have hdwv : dropWs (dumpsL v ++ '\x7d' :: rest) = dumpsL v ++ '\x7d' :: rest := by
            rw [hv0]; simp only [List.cons_append]; exact dropWs_not _ _ hwsv
          rw [harg, readFields_key_go, readStr_escBody]
          simp only [Option.some_bind]
          rw [dropWs_not ':' (dumpsL v ++ '\x7d' :: rest) (by decide)]
          simp only [hdwv, hv, Option.some_bind]
          rw [dropWs_not '\x7d' rest (by decide)]
          simp [String_mk_data]
  | (k, v), kv2 :: fs, f, rest, hf => by
      cases f with
      | zero => exact absurd hf (Nat.not_lt_zero _)
      | succ g =>
          have hlen : (fieldsL ((k, v) :: kv2 :: fs)).length
              = (escBody k.data).length + 3 + (dumpsL v).length + 1
                  + (fieldsL (kv2 :: fs)).length := by
            simp only [fieldsL, List.length_append, List.length_cons]
            omega
          have hfv : (dumpsL v).length < g := by omega
          have hfx : (fieldsL (kv2 :: fs)).length + 1 < g := by omega
          have hv := rt_val v g
            (',' :: (fieldsL (kv2 :: fs) ++ '\x7d' :: rest)) hfv rfl
          obtain ⟨t2, h2⟩ := fieldsL_head kv2 fs
          have hdw2 : dropWs (fieldsL (kv2 :: fs) ++ '\x7d' :: rest)
              = fieldsL (kv2 :: fs) ++ '\x7d' :: rest := by
            rw [h2]; simp only [List.cons_append]; exact dropWs_not _ _ (by decide)
          obtain ⟨cv, tv, hv0, hwsv, -⟩ := dumpsL_head v
          have hdwv : dropWs (dumpsL v ++ ',' :: (fieldsL (kv2 :: fs) ++ '\x7d' :: rest))
              = dumpsL v ++ ',' :: (fieldsL (kv2 :: fs) ++ '\x7d' :: rest) := by
            rw [hv0]; simp only [List.cons_append]; exact dropWs_not _ _ hwsv
          have harg : fieldsL ((k, v) :: kv2 :: fs) ++ '\x7d' :: rest
              = '"' :: (escBody k.data ++ '"' :: (':' ::
                  (dumpsL v ++ ',' :: (fieldsL (kv2 :: fs) ++ '\x7d' :: rest)))) := by
            simp [fieldsL]
          rw [harg, readFields_key_go, readStr_escBody]
          simp only [Option.some_bind]
          rw [dropWs_not ':'
            (dumpsL v ++ ',' :: (fieldsL (kv2 :: fs) ++ '\x7d' :: rest)) (by decide)]
          simp only [hdwv, hv, Option.some_bind]
          rw [dropWs_not ',' (fieldsL (kv2 :: fs) ++ '\x7d' :: rest) (by decide)]
          simp only [hdw2, rt_fields kv2 fs g rest hfx, Option.map_some]
          simp [String_mk_data]
  termination_by kv fs => sizeOf kv + sizeOf fs

end

/-! From the loop state to the specification shape. -/

/-- The item loop writes `bodyChars` and clears `first_item` exactly when
an item was written. -/
theorem writeItems_spec (items : List Json) : ∀ fi : Bool,
    writeItems fi items = (bodyChars fi items, fi && items.isEmpty) := by
  induction items with
  | nil => intro fi; cases fi <;> rfl
  | cons it its ih =>
      intro fi
      have hr := ih false
      cases fi with
      | true =>
          simp only [writeItems, hr]
          cases its <;> simp [bodyChars, chunk]
      | false =>
          simp only [writeItems, hr]
          cases its <;> simp [bodyChars, chunk]

/-- Chunks concatenate. -/
theorem chunk_append (a b : List Json) : chunk (a ++ b) = chunk a ++ chunk b := by
  induction a with
  | nil => simp [chunk]
  | cons x xs ih => simp [chunk, ih]

/-- Body characters split along an item-list split, the flag threading
through. -/
theorem bodyChars_append (fi : Bool) (a b : List Json) :
    bodyChars fi (a ++ b) = bodyChars fi a ++ bodyChars (fi && a.isEmpty) b := by
  cases a with
  | nil => cases fi <;> simp [bodyChars]
  | cons x xs =>
      cases fi with
      | true =>
          cases b with
          | nil => simp [bodyChars, chunk_append, chunk]
          | cons y ys => simp [bodyChars, chunk_append, chunk]
      | false =>
          cases b with
          | nil => simp [bodyChars, chunk_append, chunk]
          | cons y ys => simp [bodyChars, chunk_append, chunk]

/-- Splitting the items of a trace at its first page. -/
theorem allItems_cons (p : Page) (ps : List Page) :
    allItems (p :: ps) = p.pageItems ++ allItems ps := by
  simp [allItems]

/-- The pagination loop, in closed form: it writes the body characters of
the consumed pages' items, tracks the item count, and counts the consumed
pages. -/
theorem streamLoop_spec (pages : List Page) : ∀ fi : Bool,
    streamLoop pages fi
      = (bodyChars fi (allItems (consumedPages pages)),
         fi && (allItems (consumedPages pages)).isEmpty,
         (allItems (consumedPages pages)).length,
         (consumedPages pages).length) := by
  induction pages with
  | nil => intro fi; simp [streamLoop, consumedPages, allItems, bodyChars]
  | cons p rest ih =>
      intro fi
      by_cases hnl : nextLinkFalsy p.nextLink
      · simp only [streamLoop, writeItems_spec, hnl, if_true, consumedPages]
        simp [allItems]
      · have hcp : consumedPages (p :: rest) = p :: consumedPages rest := by
          rw [show consumedPages (p :: rest)
                = if nextLinkFalsy p.nextLink then [p]
                  else p :: consumedPages rest from rfl, if_neg hnl]
        simp only [streamLoop, writeItems_spec, hnl, if_false, hcp,
          ih (fi && p.pageItems.isEmpty), allItems_cons, bodyChars_append,
          List.length_append, Prod.mk.injEq]
        cases hpi : p.pageItems <;> simp

/-- A complete trace is consumed whole. -/
theorem consumedPages_complete : ∀ pages : List Page,
    completeTrace pages = true → consumedPages pages = pages
  | [], h => by simp [completeTrace] at h
  | [p], h => by
      simp only [completeTrace] at h
      simp [consumedPages, h]
  | p :: p2 :: rest, h => by
      simp only [completeTrace, Bool.and_eq_true, Bool.not_eq_true'] at h
      have hrec := consumedPages_complete (p2 :: rest) h.2
      rw [show consumedPages (p :: p2 :: rest)
            = if nextLinkFalsy p.nextLink then [p]
              else p :: consumedPages (p2 :: rest) from rfl,
          if_neg (by simp [h.1]), hrec]

/-- File content of a complete run, in closed form. -/
theorem streamBytes_eq (pages : List Page) (h : completeTrace pages = true) :
    streamBytes pages
      = String.mk ('[' :: '\n' :: bodyChars true (allItems pages)
          ++ '\n' :: ']' :: '\n' :: []) := by
  unfold streamBytes
  rw [streamLoop_spec, consumedPages_complete pages h]

/-- Reading the streamed element run: items separated by `",\n"` and
closed by `"\n]"` parse back to the item list. -/
theorem rt_streamElems : ∀ (xs : List Json) (x : Json) (g : Nat) (rest : List Char),
    (dumpsL x).length + (chunk xs).length + 1 < g →
    readElems g (dumpsL x ++ (chunk xs ++ '\n' :: ']' :: rest)) = some (x :: xs, rest)
  | [], x, g, rest, hg => by
      cases g with
      | zero => exact absurd hg (Nat.not_lt_zero _)
      | succ g' =>
          have hx : (dumpsL x).length < g' := by
            simp only [chunk, List.length_nil] at hg; omega
          have hv := rt_val x g' ('\n' :: ']' :: rest) hx rfl
          simp only [chunk, List.nil_append]
          simp only [readElems, hv, Option.some_bind]
          rw [show dropWs ('\n' :: ']' :: rest) = ']' :: rest from by
            simp [dropWs, jsonWs]]
          rfl
  | y :: ys, x, g, rest, hg => by
      cases g with
      | zero => exact absurd hg (Nat.not_lt_zero _)
      | succ g' =>
          have hlen : (chunk (y :: ys)).length
              = (dumpsL y).length + (chunk ys).length + 2 := by
            simp only [chunk, List.length_cons, List.length_append]
          have hx : (dumpsL x).length < g' := by omega
          have hy : (dumpsL y).length + (chunk ys).length + 1 < g' := by omega
          have harg : dumpsL x ++ (chunk (y :: ys) ++ '\n' :: ']' :: rest)
              = dumpsL x ++ ',' :: '\n'
                  :: (dumpsL y ++ (chunk ys ++ '\n' :: ']' :: rest)) := by
            simp [chunk]
          have hv := rt_val x g'
            (',' :: '\n' :: (dumpsL y ++ (chunk ys ++ '\n' :: ']' :: rest))) hx rfl
          obtain ⟨cy, ty, hy0, hwsy, -⟩ := dumpsL_head y
          have hdwy : dropWs (dumpsL y ++ (chunk ys ++ '\n' :: ']' :: rest))
              = dumpsL y ++ (chunk ys ++ '\n' :: ']' :: rest) := by
            rw [hy0]; simp only [List.cons_append]; exact dropWs_not _ _ hwsy
          rw [harg]
          simp only [readElems, hv, Option.some_bind]
          rw [dropWs_not ','
            ('\n' :: (dumpsL y ++ (chunk ys ++ '\n' :: ']' :: rest))) (by decide)]
          have hdwn : dropWs ('\n' :: (dumpsL y ++ (chunk ys ++ '\n' :: ']' :: rest)))
              = dumpsL y ++ (chunk ys ++ '\n' :: ']' :: rest) := by
            simp only [dropWs]
            rw [if_pos (by decide)]
            exact hdwy
          simp only [hdwn, rt_streamElems ys y g' rest hy]
          rfl

/-- Loading back the streamed file of a complete run yields exactly the
array of all fetched items, in order. -/
theorem json_load_streamBytes (pages : List Page) (h : completeTrace pages = true) :
    json_load (streamBytes pages) = some (Json.arr (allItems pages)) := by
  rw [streamBytes_eq pages h]
  cases hall : allItems pages with
  | nil => rfl
  | cons x xs =>
      obtain ⟨cx, tx, hx0, hwsx, hbrx⟩ := dumpsL_head x
      have hcs : ('[' :: '\n' :: bodyChars true (x :: xs)
            ++ '\n' :: ']' :: '\n' :: ([] : List Char))
          = '[' :: ('\n' :: (dumpsL x ++ (chunk xs ++ '\n' :: ']' :: '\n' :: []))) := by
        show '[' :: '\n' :: (dumpsL x ++ chunk xs) ++ '\n' :: ']' :: '\n' :: [] = _
        simp
      have hdw : dropWs ('\n' :: (dumpsL x ++ (chunk xs ++ '\n' :: ']' :: '\n' :: [])))
          = cx :: (tx ++ (chunk xs ++ '\n' :: ']' :: '\n' :: [])) := by
        simp only [dropWs]
        rw [if_pos (by decide), hx0]
        simp only [List.cons_append]
        exact dropWs_not _ _ hwsx
      have hcons : dumpsL x ++ (chunk xs ++ '\n' :: ']' :: '\n' :: ([] : List Char))
          = cx :: (tx ++ (chunk xs ++ '\n' :: ']' :: '\n' :: [])) := by
        rw [hx0]; simp
      unfold json_load
      rw [hcs]
      have hlen : ('[' :: ('\n' :: (dumpsL x
            ++ (chunk xs ++ '\n' :: ']' :: '\n' :: ([] : List Char))))).length
          = ('\n' :: (dumpsL x ++ (chunk xs
              ++ '\n' :: ']' :: '\n' :: ([] : List Char)))).length + 1 := by
        simp
      rw [hlen, readVal_arr_go _ _ _ cx hdw hbrx, ← hcons,
        rt_streamElems xs x _ ('\n' :: []) ?hb]
      case hb =>
        simp only [List.length_cons, List.length_append]
        omega
      rfl

/-! Behaviour of the `fetch_page` retry loop. -/

/-- A retryable status is not 200. -/
theorem retryable_ne_200 (s : Nat) (h : retryable s = true) : s ≠ 200 := by
  intro hs
  subst hs
  simp [retryable] at h

/-- When every attempt fails (network exception or retryable status), the
loop started at `attempt` raises after exactly `n` more sleeps and `n + 1`
more requests, where `attempt + n = MAX_RETRIES`. -/
theorem fetchGo_allFail (outcomes : Nat → AttemptOutcome)
    (h : ∀ j, isFailure (outcomes j) = true) :
    ∀ (n i attempt : Nat), attempt + n = MAX_RETRIES →
      raisedResult (fetchGo outcomes i attempt).1 = true
        ∧ (fetchGo outcomes i attempt).2.1.length = n
        ∧ (fetchGo outcomes i attempt).2.2 = n + 1 := by
  intro n
  induction n with
  | zero =>
      intro i attempt ha
      unfold fetchGo
      cases houtcome : outcomes i with
      | netError =>
          dsimp only
          rw [dif_pos (by simp only [MAX_RETRIES] at *; omega)]
          exact ⟨rfl, rfl, rfl⟩
      | response st ra body =>
          have hretry : retryable st = true := by
            have := h i
            rw [houtcome] at this
            simpa [isFailure] using this
          dsimp only
          rw [if_neg (retryable_ne_200 st hretry), if_pos hretry,
            dif_pos (by simp only [MAX_RETRIES] at *; omega)]
          exact ⟨rfl, rfl, rfl⟩
  | succ n ih =>
      intro i attempt ha
      have hle : ¬(attempt + 1 > MAX_RETRIES) := by omega
      have hrec := ih (i + 1) (attempt + 1) (by omega)
      unfold fetchGo
      cases houtcome : outcomes i with
      | netError =>
          dsimp only
          rw [dif_neg hle]
          refine ⟨hrec.1, ?_, ?_⟩
          · simp [hrec.2.1]
          · simp [hrec.2.2]
      | response st ra body =>
          have hretry : retryable st = true := by
            have := h i
            rw [houtcome] at this
            simpa [isFailure] using this
          dsimp only
          rw [if_neg (retryable_ne_200 st hretry), if_pos hretry, dif_neg hle]
          refine ⟨hrec.1, ?_, ?_⟩
          · simp [hrec.2.1]
          · simp [hrec.2.2]

/-- When every attempt raises a network exception, the recorded sleeps are
exactly the exponential backoff values `BACKOFF_BASE ^ attempt`. -/
theorem fetchGo_netSleeps (outcomes : Nat → AttemptOutcome)
    (h : ∀ j, outcomes j = AttemptOutcome.netError) :
    ∀ (n i attempt : Nat), attempt + n = MAX_RETRIES →
      (fetchGo outcomes i attempt).2.1
        = (List.range n).map fun k => BACKOFF_BASE ^ (attempt + 1 + k) := by
  intro n
  induction n with
  | zero =>
      intro i attempt ha
      unfold fetchGo
      rw [h i]
      dsimp only
      rw [dif_pos (by simp only [MAX_RETRIES] at *; omega)]
      rfl
  | succ n ih =>
      intro i attempt ha
      have hle : ¬(attempt + 1 > MAX_RETRIES) := by omega
      unfold fetchGo
      rw [h i]
      dsimp only
      rw [dif_neg hle]
      have hrec := ih (i + 1) (attempt + 1) (by omega)
      rw [hrec, List.range_succ_eq_map, List.map_cons, List.map_map]
      dsimp only
      simp only [Nat.add_zero]
      congr 1
      refine List.map_congr_left fun k hk => ?_
      simp only [Function.comp]
      congr 1
      omega

/-- When every attempt returns a retryable status, the recorded sleep
before retry `k + 1` honours the numeric `Retry-After` header of the
`k`-th response when one is given, falling back to exponential backoff,
and the loop finally re-raises the HTTP error of the last response. -/
theorem fetchGo_retrySleeps (sts : Nat → Nat) (ras : Nat → Option String)
    (bodies : Nat → Page) (h : ∀ j, retryable (sts j) = true) :
    ∀ (n i attempt : Nat), attempt + n = MAX_RETRIES →
      (fetchGo (fun j => AttemptOutcome.response (sts j) (ras j) (bodies j))
          i attempt).2.1
        = ((List.range n).map fun k =>
            match ras (i + k) with
            | none => BACKOFF_BASE ^ (attempt + 1 + k)
            | some hd =>
                if hd = "" then BACKOFF_BASE ^ (attempt + 1 + k)
                else
                  match pyFloat? hd with
                  | some q => q
                  | none => BACKOFF_BASE ^ (attempt + 1 + k))
        ∧ (fetchGo (fun j => AttemptOutcome.response (sts j) (ras j) (bodies j))
            i attempt).1 = FetchResult.raisedHTTPError (sts (i + n)) := by
  intro n
  induction n with
  | zero =>
      intro i attempt ha
      unfold fetchGo
      dsimp only
      rw [if_neg (retryable_ne_200 _ (h i)), if_pos (h i),
        dif_pos (by simp only [MAX_RETRIES] at *; omega)]
      exact ⟨rfl, rfl⟩
  | succ n ih =>
      intro i attempt ha
      have hle : ¬(attempt + 1 > MAX_RETRIES) := by omega
      have hrec := ih (i + 1) (attempt + 1) (by omega)
      unfold fetchGo
      dsimp only
      rw [if_neg (retryable_ne_200 _ (h i)), if_pos (h i), dif_neg hle]
      constructor
      · rw [hrec.1, List.range_succ_eq_map, List.map_cons, List.map_map]
        dsimp only
        simp only [Nat.add_zero]
        congr 1
        refine List.map_congr_left fun k hk => ?_
        simp only [Function.comp]
        have hidx : i + 1 + k = i + (k + 1) := by omega
        have hexp : attempt + 1 + 1 + k = attempt + 1 + (k + 1) := by omega
        rw [hidx, hexp]
      · rw [hrec.2]
        refine congrArg _ (congrArg _ (by omega))

/-! Claim theorems. -/

/-- C1: the claim says an empty or placeholder token — including the
built-in default `"<API key here>"` used when `TM_API_TOKEN` is unset —
makes the program write a diagnostic and exit 1 before any request.  The
pre-flight only compares against the string
`"<PUT_YOUR_BEARER_TOKEN_HERE>"`, which differs from the built-in default,
so with the variable unset the check passes and an `Authorization` header
holding the placeholder is built and used for a network request. -/
theorem C1_default_token_passes_preflight :
    TOKEN none = "<API key here>"
      ∧ auth_check (TOKEN none) = false
      ∧ auth_header (TOKEN none) = Except.ok "Bearer <API key here>"
      ∧ auth_check "" = true
      ∧ auth_check " <PUT_YOUR_BEARER_TOKEN_HERE> " = true :=
  ⟨rfl, rfl, rfl, rfl, rfl⟩

/-- C2: over a complete trace, the output file parses as a JSON array
whose elements are exactly the fetched items, in page order then position
order, and whose count is the sum of the page sizes. -/
theorem C2_stream_array_content (pages : List Page)
    (h : completeTrace pages = true) :
    json_load (streamBytes pages) = some (Json.arr (allItems pages))
      ∧ allItems pages = (pages.map Page.pageItems).flatten
      ∧ (allItems pages).length = ((pages.map fun p => p.pageItems.length).sum) := by
  refine ⟨json_load_streamBytes pages h, rfl, ?_⟩
  rw [allItems, List.length_flatten, List.map_map]
  rfl

/-- Witness for C2 on a three-page trace with sizes 2, 0, 1. -/
theorem C2_stream_array_content_witness :
    completeTrace [Page.mk (some [Json.num 1, Json.num 2]) (some "u") none,
        Page.mk (some []) (some "v") none,
        Page.mk (some [Json.num 3]) none none] = true
      ∧ (json_load (streamBytes [Page.mk (some [Json.num 1, Json.num 2]) (some "u") none,
            Page.mk (some []) (some "v") none,
            Page.mk (some [Json.num 3]) none none])
          = some (Json.arr (allItems [Page.mk (some [Json.num 1, Json.num 2]) (some "u") none,
              Page.mk (some []) (some "v") none,
              Page.mk (some [Json.num 3]) none none]))
        ∧ allItems [Page.mk (some [Json.num 1, Json.num 2]) (some "u") none,
              Page.mk (some []) (some "v") none,
              Page.mk (some [Json.num 3]) none none]
            = ([Page.mk (some [Json.num 1, Json.num 2]) (some "u") none,
                Page.mk (some []) (some "v") none,
                Page.mk (some [Json.num 3]) none none].map Page.pageItems).flatten
        ∧ (allItems [Page.mk (some [Json.num 1, Json.num 2]) (some "u") none,
              Page.mk (some []) (some "v") none,
              Page.mk (some [Json.num 3]) none none]).length
            = (([Page.mk (some [Json.num 1, Json.num 2]) (some "u") none,
                Page.mk (some []) (some "v") none,
                Page.mk (some [Json.num 3]) none none].map
                  fun p => p.pageItems.length).sum)) :=
  ⟨rfl, C2_stream_array_content _ rfl⟩

/-- C3: over a complete trace — including traces with empty pages
interleaved and the all-empty trace — the streamed bytes parse as exactly
one well-formed JSON array. -/
theorem C3_stream_wellformed_json (pages : List Page)
    (h : completeTrace pages = true) :
    ∃ es : List Json, json_load (streamBytes pages) = some (Json.arr es) :=
  ⟨allItems pages, json_load_streamBytes pages h⟩

/-- Witness for C3 on a trace interleaving empty and missing item lists
with a non-empty page. -/
theorem C3_stream_wellformed_json_witness :
    completeTrace [Page.mk (some []) (some "a") none,
        Page.mk none (some "b") none,
        Page.mk (some [Json.num 7]) (some "c") none,
        Page.mk none none none] = true
      ∧ ∃ es : List Json,
          json_load (streamBytes [Page.mk (some []) (some "a") none,
            Page.mk none (some "b") none,
            Page.mk (some [Json.num 7]) (some "c") none,
            Page.mk none none none]) = some (Json.arr es) :=
  ⟨rfl, C3_stream_wellformed_json _ rfl⟩

/-- C4: when every fetched page of a complete trace carries zero items,
the whole file is exactly the six bytes of an open bracket, two newlines
framing nothing, a close bracket and a final newline. -/
theorem C4_zero_items_output (pages : List Page)
    (h1 : completeTrace pages = true) (h2 : ∀ p ∈ pages, p.pageItems = []) :
    streamBytes pages = "[\n\n]\n" := by
  have hitems : allItems pages = [] := by
    rw [allItems, List.flatten_eq_nil_iff]
    intro l hl
    rw [List.mem_map] at hl
    obtain ⟨p, hp, hpl⟩ := hl
    rw [← hpl]
    exact h2 p hp
  rw [streamBytes_eq pages h1, hitems]
  rfl

/-- Witness for C4 on a two-page trace with a missing and an empty item
list. -/
theorem C4_zero_items_output_witness :
    completeTrace [Page.mk none (some "x") none, Page.mk (some []) none none] = true
      ∧ (∀ p ∈ [Page.mk none (some "x") none, Page.mk (some []) none none],
          p.pageItems = [])
      ∧ streamBytes [Page.mk none (some "x") none, Page.mk (some []) none none]
          = "[\n\n]\n" := by
  have h2 : ∀ p ∈ [Page.mk none (some "x") none, Page.mk (some []) none none],
      p.pageItems = [] := by
    intro p hp
    simp only [List.mem_cons, List.not_mem_nil, or_false] at hp
    rcases hp with rfl | rfl <;> rfl
  exact ⟨rfl, h2, C4_zero_items_output _ rfl h2⟩

/-- C5 counterexample: a page whose response carries `nextLink` present
but equal to the empty string.  The claim as stated says the loop
continues whenever `nextLink` is present; the code tests Python
truthiness, so it stops after this page — the second page is neither
consumed nor written. -/
theorem C5_counterexample_empty_nextlink :
    (Page.mk (some []) (some "") none).nextLink.isSome = true
      ∧ (streamLoop [Page.mk (some []) (some "") none,
          Page.mk (some [Json.num 1]) none none] true).2.2.2 = 1
      ∧ (streamLoop [Page.mk (some []) (some "") none,
          Page.mk (some [Json.num 1]) none none] true).2.2.1 = 0 :=
  ⟨rfl, rfl, rfl⟩

/-- C5 amended: on a trace with at least one further page, the loop stops
after the first page exactly when its `nextLink` is absent or the empty
string (Python-falsy), and otherwise continues with the next page. -/
theorem C5_pagination_stop_falsy (p : Page) (rest : List Page) (fi : Bool)
    (hrest : rest ≠ []) :
    ((streamLoop (p :: rest) fi).2.2.2 = 1
        ↔ (p.nextLink = none ∨ p.nextLink = some ""))
      ∧ (nextLinkFalsy p.nextLink = false →
          (streamLoop (p :: rest) fi).2.2.2
            = (streamLoop rest (writeItems fi p.pageItems).2).2.2.2 + 1) := by
  have hcount : ∀ (ps : List Page) (f2 : Bool),
      (streamLoop ps f2).2.2.2 = (consumedPages ps).length := by
    intro ps f2
    rw [streamLoop_spec]
  have hfalsyIff : nextLinkFalsy p.nextLink = true
      ↔ (p.nextLink = none ∨ p.nextLink = some "") := by
    cases hnl : p.nextLink with
    | none => simp [nextLinkFalsy]
    | some s => simp [nextLinkFalsy]
  have hsplit : consumedPages (p :: rest)
      = if nextLinkFalsy p.nextLink then [p] else p :: consumedPages rest := rfl
  have hne : consumedPages rest ≠ [] := by
    cases rest with
    | nil => exact absurd rfl hrest
    | cons q t =>
        rw [show consumedPages (q :: t)
              = if nextLinkFalsy q.nextLink then [q]
                else q :: consumedPages t from rfl]
        split <;> simp
  constructor
  · rw [hcount, hsplit]
    by_cases hnl : nextLinkFalsy p.nextLink
    · simp [hnl, hfalsyIff.mp hnl]
    · have h1 : (consumedPages rest).length ≠ 0 := by
        simpa [List.length_eq_zero] using hne
      rw [if_neg hnl]
      simp only [List.length_cons]
      constructor
      · intro hlen
        omega
      · intro hc
        exact absurd (hfalsyIff.mpr hc) hnl
  · intro hnl
    rw [hcount, hcount, hsplit, if_neg (by simp [hnl])]
    simp

/-- Witness for the amended C5 on a concrete two-page trace whose first
page has a present, nonempty `nextLink`. -/
theorem C5_pagination_stop_falsy_witness :
    (((streamLoop [Page.mk (some [Json.num 1]) (some "go") none,
          Page.mk (some []) none none] true).2.2.2 = 1
        ↔ ((Page.mk (some [Json.num 1]) (some "go") none).nextLink = none
            ∨ (Page.mk (some [Json.num 1]) (some "go") none).nextLink = some ""))
      ∧ (nextLinkFalsy (Page.mk (some [Json.num 1]) (some "go") none).nextLink = false →
          (streamLoop [Page.mk (some [Json.num 1]) (some "go") none,
              Page.mk (some []) none none] true).2.2.2
            = (streamLoop [Page.mk (some []) none none]
                (writeItems true
                  (Page.mk (some [Json.num 1]) (some "go") none).pageItems).2).2.2.2
                + 1)) :=
  C5_pagination_stop_falsy (Page.mk (some [Json.num 1]) (some "go") none)
    [Page.mk (some []) none none] true (List.cons_ne_nil _ _)

/-- C6: when every attempt fails (request exception or retryable HTTP
status), `fetch_page` issues exactly `MAX_RETRIES + 1` requests, sleeps
`MAX_RETRIES` times, and raises; when the failures are request
exceptions, the sleep before retry `a` is `BACKOFF_BASE ^ a`. -/
theorem C6_retry_exhaustion (outcomes : Nat → AttemptOutcome)
    (h : ∀ j, isFailure (outcomes j) = true) :
    raisedResult (fetch_page outcomes).1 = true
      ∧ (fetch_page outcomes).2.1.length = MAX_RETRIES
      ∧ (fetch_page outcomes).2.2 = MAX_RETRIES + 1
      ∧ ((∀ j, outcomes j = AttemptOutcome.netError) →
          (fetch_page outcomes).2.1
            = (List.range MAX_RETRIES).map fun a => BACKOFF_BASE ^ (a + 1)) := by
  have hmain := fetchGo_allFail outcomes h MAX_RETRIES 0 0 (by simp)
  refine ⟨hmain.1, hmain.2.1, hmain.2.2, ?_⟩
  intro hnet
  have hs := fetchGo_netSleeps outcomes hnet MAX_RETRIES 0 0 (by simp)
  rw [fetch_page, hs]
  refine List.map_congr_left fun k hk => ?_
  congr 1
  omega

/-- Witness for C6: every attempt raises a request exception. -/
theorem C6_retry_exhaustion_witness :
    raisedResult (fetch_page fun _ : Nat => AttemptOutcome.netError).1 = true
      ∧ (fetch_page fun _ : Nat => AttemptOutcome.netError).2.1.length = MAX_RETRIES
      ∧ (fetch_page fun _ : Nat => AttemptOutcome.netError).2.2 = MAX_RETRIES + 1
      ∧ ((∀ j, (fun _ : Nat => AttemptOutcome.netError) j = AttemptOutcome.netError) →
          (fetch_page fun _ : Nat => AttemptOutcome.netError).2.1
            = (List.range MAX_RETRIES).map fun a => BACKOFF_BASE ^ (a + 1)) :=
  C6_retry_exhaustion (fun _ => AttemptOutcome.netError) (fun _ => rfl)

/-- C7: when every attempt returns a retryable status, the sleep recorded
before retry `k + 1` is the numeric value of the `k`-th response's
`Retry-After` header when present and parseable, else
`BACKOFF_BASE ^ (k + 1)`; the HTTP error of the last response is
re-raised. -/
theorem C7_retry_after_sleep (sts : Nat → Nat) (ras : Nat → Option String)
    (bodies : Nat → Page) (h : ∀ j, retryable (sts j) = true) :
    (fetch_page fun j => AttemptOutcome.response (sts j) (ras j) (bodies j)).2.1
      = ((List.range MAX_RETRIES).map fun k =>
          match ras k with
          | none => BACKOFF_BASE ^ (k + 1)
          | some hd =>
              if hd = "" then BACKOFF_BASE ^ (k + 1)
              else
                match pyFloat? hd with
                | some q => q
                | none => BACKOFF_BASE ^ (k + 1))
      ∧ (fetch_page fun j => AttemptOutcome.response (sts j) (ras j) (bodies j)).1
          = FetchResult.raisedHTTPError (sts MAX_RETRIES) := by
  have hmain := fetchGo_retrySleeps sts ras bodies h MAX_RETRIES 0 0 (by simp)
  constructor
  · rw [fetch_page, hmain.1]
    refine List.map_congr_left fun k hk => ?_
    have h0 : (0 : Nat) + k = k := by omega
    have h1 : 0 + 1 + k = k + 1 := by omega
    rw [h0, h1]
  · rw [fetch_page, hmain.2]
    simp

/-- Witness for C7: HTTP 429 on every attempt, `Retry-After: 2` on the
first response only; the first sleep is 2 seconds, the rest fall back to
exponential backoff. -/
theorem C7_retry_after_sleep_witness :
    (fetch_page fun j => AttemptOutcome.response ((fun _ : Nat => 429) j)
          ((fun j : Nat => if j = 0 then some "2" else none) j)
          ((fun _ : Nat => Page.mk none none none) j)).2.1
        = ((List.range MAX_RETRIES).map fun k =>
            match (fun j : Nat => if j = 0 then some "2" else none) k with
            | none => BACKOFF_BASE ^ (k + 1)
            | some hd =>
                if hd = "" then BACKOFF_BASE ^ (k + 1)
                else
                  match pyFloat? hd with
                  | some q => q
                  | none => BACKOFF_BASE ^ (k + 1))
      ∧ (fetch_page fun j => AttemptOutcome.response ((fun _ : Nat => 429) j)
            ((fun j : Nat => if j = 0 then some "2" else none) j)
            ((fun _ : Nat => Page.mk none none none) j)).1
          = FetchResult.raisedHTTPError ((fun _ : Nat => 429) MAX_RETRIES) :=
  C7_retry_after_sleep (fun _ => 429) (fun j => if j = 0 then some "2" else none)
    (fun _ => Page.mk none none none) (fun _ => rfl)

/-- C8: the exit-code policy of `main`, in closed form: a failed token
pre-flight is the only exit-1 path; an exception escaping the streaming
loop yields a stderr diagnostic and exit 2; success prints an
informational line naming the output file and exits 0. -/
theorem C8_exit_code_policy (env : Option String) (ts : String)
    (fo : Except String (List Page)) :
    main_run env ts fo
      = if auth_check (TOKEN env) then ⟨1, true, none⟩
        else
          match fo with
          | Except.error _ => ⟨2, true, none⟩
          | Except.ok _ =>
              ⟨0, false,
                some ("Wrote: " ++ ("vulnerable_devices_" ++ ts ++ ".json"))⟩ := by
  by_cases ha : auth_check (TOKEN env)
  · simp [main_run, stream_all_run, ha]
  · cases fo <;> simp [main_run, stream_all_run, ha]

/-- C9: the claim says a failing rewrite step leaves the previously
written compact file untouched.  Loading failures do (first fact, on
non-JSON content), and no failure of the step changes the exit path, but
the rewrite reopens the path with mode `"w"` before dumping, so a dump
failure leaves a truncated file, not the compact one — here the valid
compact content `"[\n\n]\n"` becomes the empty file while the handler
logs its warning claiming the compact output was kept. -/
theorem C9_reformat_failure_truncates :
    post_process false "oops" none = ("oops", true)
      ∧ post_process false "[\n\n]\n" (some 0) = ("", true)
      ∧ ("" : String) ≠ "[\n\n]\n"
      ∧ post_process true "[\n\n]\n" (some 0) = ("[\n\n]\n", false) :=
  ⟨rfl, rfl, by decide, rfl⟩

/-- C10: a fetched page whose decoded body has no `items` field behaves
as an empty page: the item loop writes nothing and leaves the
`first_item` flag unchanged, the cumulative count gains zero, and when
`nextLink` is non-falsy the loop still continues with the remaining
trace. -/
theorem C10_missing_items_empty_page (p : Page) (rest : List Page) (fi : Bool)
    (h : p.items = none) :
    writeItems fi p.pageItems = ([], fi)
      ∧ p.pageItems.length = 0
      ∧ (nextLinkFalsy p.nextLink = false →
          streamLoop (p :: rest) fi
            = ((streamLoop rest fi).1, (streamLoop rest fi).2.1,
                (streamLoop rest fi).2.2.1, (streamLoop rest fi).2.2.2 + 1)) := by
  have hpi : p.pageItems = [] := by
    rw [Page.pageItems, h]
    rfl
  refine ⟨by rw [hpi]; rfl, by rw [hpi]; rfl, ?_⟩
  intro hnl
  simp only [streamLoop, hpi, writeItems]
  rw [if_neg (by simp [hnl])]
  rcases hsl : streamLoop rest fi with ⟨a, b, c, d⟩
  simp [hsl]

/-- Witness for C10: a page with no `items` field and a nonempty
`nextLink`, followed by one further page. -/
theorem C10_missing_items_empty_page_witness :
    writeItems true (Page.mk none (some "n") none).pageItems = ([], true)
      ∧ (Page.mk none (some "n") none).pageItems.length = 0
      ∧ (nextLinkFalsy (Page.mk none (some "n") none).nextLink = false →
          streamLoop [Page.mk none (some "n") none,
              Page.mk (some [Json.num 5]) none none] true
            = ((streamLoop [Page.mk (some [Json.num 5]) none none] true).1,
                (streamLoop [Page.mk (some [Json.num 5]) none none] true).2.1,
                (streamLoop [Page.mk (some [Json.num 5]) none none] true).2.2.1,
                (streamLoop [Page.mk (some [Json.num 5]) none none] true).2.2.2 + 1)) :=
  C10_missing_items_empty_page (Page.mk none (some "n") none)
    [Page.mk (some [Json.num 5]) none none] true rfl

end CREM
